import Mathlib

/-!
Verification development for the `apple-cdn-network-bench` repository.

The Go source is shallowly embedded in Lean:

* `internal/config/config.go` — `ParseSize` and its size-string regex.
* `internal/endpoint/endpoint.go` — `resolveDoH` (candidate collection and
  first-seen de-duplication, with the package-level IPv4 regex as fallback),
  `fetchIPDesc` (description building) and `promptChoice`.
* the transfer package (`src/unnamed/part_001`) — `doDownload`'s chunked read
  loop, `doUpload`'s counting/rollback behaviour, and `Run`'s final
  aggregation of the shared byte counter into a `Result`.

Machine integers (`int64`) are embedded as `Nat`/`Int` (the measured values
are far below 2^63, and the Go code never relies on wrap-around).  Network
effects are embedded by making each worker's observable attempt — the chunks
its response body delivers, the HTTP status, transport errors — an explicit
argument.  Go standard-library routines used by the code (`net.ParseIP`,
`strconv.Atoi`, `strings.TrimSpace`, `strconv.ParseFloat` on the digits-only
strings the size regex admits) are modelled by executable Lean functions that
follow the documented behaviour of those routines.  The `float64` pipeline
of `ParseSize` (`ParseFloat`, the multiply by the unit factor, the `int64`
conversion) is embedded exactly: a non-negative finite binary64 is its
integer significand and exponent, and `roundF64` performs the IEEE-754
round-to-nearest-ties-even with the subnormal quantum and overflow to
infinity, so rounding effects such as `ParseFloat("9007199254740993") =
9007199254740992` are reproduced faithfully.
-/

/-! ### Character classes (ASCII, over `Char.toNat`)

`\d`, `\w`, `\s` of Go's RE2 regexes and the ASCII ranges used by
`strings.ToLower`.  RE2's `\s` is `[\t\n\f\r ]`; `unicode.IsSpace` (used by
`strings.TrimSpace`) additionally contains `\v` (and non-ASCII white space,
which cannot occur in the inputs treated here). -/

def isDigitC (c : Char) : Bool := 48 ≤ c.toNat && c.toNat ≤ 57

def isAlphaC (c : Char) : Bool :=
  (97 ≤ c.toNat && c.toNat ≤ 122) || (65 ≤ c.toNat && c.toNat ≤ 90)

def isWordC (c : Char) : Bool := isDigitC c || isAlphaC c || c.toNat = 95

def isHexC (c : Char) : Bool :=
  isDigitC c || (97 ≤ c.toNat && c.toNat ≤ 102) || (65 ≤ c.toNat && c.toNat ≤ 70)

def reSpaceC (c : Char) : Bool :=
  c.toNat = 9 || c.toNat = 10 || c.toNat = 12 || c.toNat = 13 || c.toNat = 32

def goSpaceC (c : Char) : Bool :=
  c.toNat = 9 || c.toNat = 10 || c.toNat = 11 || c.toNat = 12 || c.toNat = 13 || c.toNat = 32

/-- Class `[0-9.]`, the character class of the number group of `sizeRe`. -/
def isNumDotC (c : Char) : Bool := isDigitC c || c.toNat = 46

/-- ASCII lower-casing, modelling `strings.ToLower` on the ASCII unit strings
`sizeRe` can capture. -/
def toLowerList (cs : List Char) : List Char :=
  cs.map fun c => if 65 ≤ c.toNat ∧ c.toNat ≤ 90 then Char.ofNat (c.toNat + 32) else c

/-- Numeric value of a decimal digit string (most significant digit first). -/
def digitsValN (cs : List Char) : Nat :=
  cs.foldl (fun acc c => acc * 10 + (c.toNat - 48)) 0

/-- Models `strings.TrimSpace`, restricted to ASCII white space. -/
def goTrimSpace (s : String) : String :=
  String.mk (((s.data.dropWhile goSpaceC).reverse.dropWhile goSpaceC).reverse)

/-- Models `strconv.Atoi`: an optional sign followed by one or more decimal digits,
with an error (here `none`) on anything else and on values outside the
`int64` range. -/
def goAtoi (s : String) : Option Int :=
  match s.data with
  | [] => none
  | c :: rest =>
    let sign : Int := if c.toNat = 45 then -1 else 1
    let digits := if c.toNat = 45 ∨ c.toNat = 43 then rest else c :: rest
    if digits = [] ∨ ¬ digits.all isDigitC then none
    else
      let v : Int := sign * (digitsValN digits : Int)
      if v < -(2 ^ 63) ∨ 2 ^ 63 - 1 < v then none else some v

/-! ### List helpers -/

theorem takeWhile_append_of_all {p : Char → Bool} :
    ∀ {l r : List Char}, (∀ c ∈ l, p c = true) →
      (l ++ r).takeWhile p = l ++ r.takeWhile p := by
  intro l
  induction l with
  | nil => intro r _; simp
  | cons c cs ih =>
    intro r h
    have hc : p c = true := h c (by simp)
    simp [List.takeWhile_cons, hc]
    exact ih fun d hd => h d (by simp [hd])

theorem dropWhile_append_of_all {p : Char → Bool} :
    ∀ {l r : List Char}, (∀ c ∈ l, p c = true) →
      (l ++ r).dropWhile p = r.dropWhile p := by
  intro l
  induction l with
  | nil => intro r _; simp
  | cons c cs ih =>
    intro r h
    have hc : p c = true := h c (by simp)
    simp [List.dropWhile_cons, hc]
    exact ih fun d hd => h d (by simp [hd])

theorem takeWhile_eq_nil_of_head {p : Char → Bool} {c : Char} {cs : List Char}
    (h : p c = false) : (c :: cs).takeWhile p = [] := by
  simp [List.takeWhile_cons, h]

theorem dropWhile_eq_self_of_head {p : Char → Bool} {c : Char} {cs : List Char}
    (h : p c = false) : (c :: cs).dropWhile p = c :: cs := by
  simp [List.dropWhile_cons, h]

/-! ### First-seen de-duplication

The `seen`-map loops of `resolveDoH` (`internal/endpoint/endpoint.go`,
both the structured tier and the regex fallback tier): walk the input,
keep an element only the first time it is met. -/

def dedupGo : List String → List String → List String
  | [], _ => []
  | x :: xs, seen => if x ∈ seen then dedupGo xs seen else x :: dedupGo xs (x :: seen)

def dedupFS (l : List String) : List String := dedupGo l []

/-- Position of the first occurrence of `x` in `l` (length of `l` if absent). -/
def firstIdx : List String → String → Nat
  | [], _ => 0
  | y :: ys, x => if y = x then 0 else firstIdx ys x + 1

theorem mem_dedupGo {a : String} :
    ∀ {l seen : List String}, a ∈ dedupGo l seen ↔ a ∈ l ∧ a ∉ seen := by
  intro l
  induction l with
  | nil => intro seen; simp [dedupGo]
  | cons x xs ih =>
    intro seen
    by_cases hx : x ∈ seen
    · simp only [dedupGo, if_pos hx, ih, List.mem_cons]
      constructor
      · rintro ⟨h1, h2⟩; exact ⟨Or.inr h1, h2⟩
      · rintro ⟨h1 | h1, h2⟩
        · exact absurd (h1 ▸ hx) h2
        · exact ⟨h1, h2⟩
    · simp only [dedupGo, if_neg hx, List.mem_cons, ih]
      constructor
      · rintro (rfl | ⟨h1, h2⟩)
        · exact ⟨Or.inl rfl, hx⟩
        · exact ⟨Or.inr h1, fun hc => h2 (by simp [hc])⟩
      · rintro ⟨h1 | h1, h2⟩
        · exact Or.inl h1
        · by_cases hax : a = x
          · exact Or.inl hax
          · exact Or.inr ⟨h1, by simp [hax, h2]⟩

theorem nodup_dedupGo : ∀ (l seen : List String), (dedupGo l seen).Nodup := by
  intro l
  induction l with
  | nil => intro seen; simp [dedupGo]
  | cons x xs ih =>
    intro seen
    by_cases hx : x ∈ seen
    · simpa [dedupGo, if_pos hx] using ih seen
    · simp only [dedupGo, if_neg hx]
      refine List.Pairwise.cons ?_ (ih (x :: seen))
      intro b hb
      have h2 := (mem_dedupGo.mp hb).2
      exact fun hxb => h2 (hxb ▸ List.mem_cons_self x seen)

theorem firstIdx_cons_ne {x a : String} {xs : List String} (h : a ≠ x) :
    firstIdx (x :: xs) a = firstIdx xs a + 1 := by
  have hxa : ¬ x = a := fun hc => h hc.symm
  simp [firstIdx, hxa]

theorem pairwise_firstIdx_shift {x : String} {xs : List String} :
    ∀ {out : List String}, (∀ a ∈ out, a ≠ x) →
      out.Pairwise (fun a b => firstIdx xs a < firstIdx xs b) →
      out.Pairwise (fun a b => firstIdx (x :: xs) a < firstIdx (x :: xs) b) := by
  intro out
  induction out with
  | nil => intro _ _; exact List.Pairwise.nil
  | cons a rest ih =>
    intro hne hp
    rcases List.pairwise_cons.mp hp with ⟨ha, hrest⟩
    refine List.pairwise_cons.mpr ⟨?_, ih (fun b hb => hne b (by simp [hb])) hrest⟩
    intro b hb
    rw [firstIdx_cons_ne (hne a (by simp)), firstIdx_cons_ne (hne b (by simp [hb]))]
    exact Nat.succ_lt_succ (ha b hb)

theorem pairwise_firstIdx_dedupGo :
    ∀ (l seen : List String),
      (dedupGo l seen).Pairwise (fun a b => firstIdx l a < firstIdx l b) := by
  intro l
  induction l with
  | nil => intro seen; simp [dedupGo]
  | cons x xs ih =>
    intro seen
    by_cases hx : x ∈ seen
    · simp only [dedupGo, if_pos hx]
      refine pairwise_firstIdx_shift ?_ (ih seen)
      intro a ha
      intro hax
      exact (mem_dedupGo.mp ha).2 (hax ▸ hx)
    · simp only [dedupGo, if_neg hx]
      refine List.pairwise_cons.mpr ⟨?_, ?_⟩
      · intro b hb
        have hbx : b ≠ x := fun hc => (mem_dedupGo.mp hb).2 (by simp [hc])
        rw [firstIdx_cons_ne hbx]
        simp [firstIdx]
      · refine pairwise_firstIdx_shift ?_ (ih (x :: seen))
        intro a ha hax
        exact (mem_dedupGo.mp ha).2 (by simp [hax])

theorem nodup_dedupFS (l : List String) : (dedupFS l).Nodup := nodup_dedupGo l []

theorem mem_dedupFS {a : String} {l : List String} : a ∈ dedupFS l ↔ a ∈ l := by
  simp [dedupFS, mem_dedupGo]

theorem pairwise_firstIdx_dedupFS (l : List String) :
    (dedupFS l).Pairwise (fun a b => firstIdx l a < firstIdx l b) :=
  pairwise_firstIdx_dedupGo l []

/-! ### `net.ParseIP` model

`resolveDoH`'s structured tier keeps an answer entry iff
`net.ParseIP(ip) != nil`.  `net.ParseIP` dispatches on the first `'.'` or
`':'` in the string: dotted-quad IPv4 (fields `0..255`, one to three digits,
no leading zeros) or RFC-4291 IPv6 (1-4 hex-digit groups separated by `':'`,
at most one `::` eliding at least one zero group, an optional trailing
embedded dotted-quad counting as two groups). -/

def splitOnC (sep : Char) : List Char → List (List Char)
  | [] => [[]]
  | c :: cs =>
    let r := splitOnC sep cs
    if c = sep then [] :: r
    else match r with
      | [] => [[c]]
      | g :: gs => (c :: g) :: gs

def validV4Field (f : List Char) : Bool :=
  decide (f ≠ []) && decide (f.length ≤ 3) && f.all isDigitC &&
  decide (digitsValN f ≤ 255) &&
  (decide (f.length = 1) || decide (f.head? ≠ some '0'))

def isIPv4Chars (cs : List Char) : Bool :=
  let fields := splitOnC '.' cs
  decide (fields.length = 4) && fields.all validV4Field

/-- A 1-4 hex-digit IPv6 group. -/
def validHexGroup (g : List Char) : Bool :=
  decide (g ≠ []) && decide (g.length ≤ 4) && g.all isHexC

/-- Index of the first `"::"` in the string, if any. -/
def findDC : List Char → Option Nat
  | ':' :: ':' :: _ => some 0
  | _ :: cs => (findDC cs).map (· + 1)
  | [] => none

/-- The explicit groups on one side of a `"::"` (empty side: no groups);
`none` when the side has a stray empty group. -/
def groupsOf (side : List Char) : Option (List (List Char)) :=
  if side = [] then some []
  else
    let gs := splitOnC ':' side
    if gs.any (· = []) then none else some gs

/-- Checks a list of explicit groups whose last element may be an embedded
dotted-quad (counting as two groups); returns the group count. -/
def v6GroupCount (gs : List (List Char)) : Option Nat :=
  match gs with
  | [] => some 0
  | [g] =>
    if validHexGroup g then some 1
    else if isIPv4Chars g then some 2
    else none
  | g :: rest =>
    if validHexGroup g then (v6GroupCount rest).map (· + 1) else none

def isIPv6Chars (cs : List Char) : Bool :=
  match findDC cs with
  | some i =>
    let left := cs.take i
    let right := cs.drop (i + 2)
    if (findDC right).isSome then false
    else
      match groupsOf left, groupsOf right with
      | some lg, some rg =>
        -- an embedded dotted-quad must fill the final 4 bytes, so it may
        -- only appear as the last group of the right side
        (match lg.all validHexGroup, v6GroupCount rg with
         | true, some k => decide (lg.length + k ≤ 7)
         | _, _ => false)
      | _, _ => false
  | none =>
    match groupsOf cs with
    | some gs =>
      (match v6GroupCount gs with
       | some k => decide (k = 8)
       | none => false)
    | none => false

def goParseIPOkAux : List Char → List Char → Bool
  | [], _ => false
  | c :: cs, full =>
    if c = '.' then isIPv4Chars full
    else if c = ':' then isIPv6Chars full
    else goParseIPOkAux cs full

/-- Models `net.ParseIP(s) != nil`. -/
def goParseIPOk (s : String) : Bool := goParseIPOkAux s.data s.data

/-! ### The package-level IPv4 regex

the pattern of `ipv4Re` — backslash-b `(?:\d{1,3}\.){3}\d{1,3}` backslash-b — and
`ipv4Re.FindAllString(body, -1)`: successive non-overlapping leftmost
matches.  For this pattern the RE2 leftmost-first search is deterministic:
a component `\d{1,3}\.` matches exactly when the maximal digit run at the
current position has length 1-3 and is followed by `'.'` (shorter greedy
choices put a digit where the `'.'` must be), and the final `\d{1,3}\b`
matches exactly when the maximal digit run has length 1-3 and the character
after it, if any, is not a word character. -/

/-- Splits off the maximal leading digit run: `(run length, rest)`. -/
def digitSplit : List Char → Nat × List Char
  | [] => (0, [])
  | c :: cs =>
    if isDigitC c then
      let (k, r) := digitSplit cs
      (k + 1, r)
    else (0, c :: cs)

/-- Consume one `\d{1,3}\.` component. -/
def comp1 (s : List Char) : Option (List Char) :=
  let (k, r) := digitSplit s
  if 1 ≤ k ∧ k ≤ 3 then
    match r with
    | '.' :: r2 => some r2
    | _ => none
  else none

/-- Consume the final `\d{1,3}\b` component. -/
def compLast (s : List Char) : Option (List Char) :=
  let (k, r) := digitSplit s
  if 1 ≤ k ∧ k ≤ 3 then
    match r with
    | [] => some []
    | c :: _ => if isWordC c then none else some r
  else none

/-- Match the whole pattern at the head of `s` (the leading `\b` is the
caller's responsibility); returns the remainder after the match. -/
def tryMatch (s : List Char) : Option (List Char) := do
  let r1 ← comp1 s
  let r2 ← comp1 r1
  let r3 ← comp1 r2
  compLast r3

/-- The scan loop of `FindAllString`: `prevWord` tells whether the character
before the current position is a word character (for `\b`); a successful
match resumes right after the matched text, whose last character is a digit.
`fuel` only bounds the recursion; every step consumes at least one character,
so `length + 1` fuel is always enough. -/
def scanIPv4 : Nat → Bool → List Char → List (List Char)
  | 0, _, _ => []
  | fuel + 1, prevWord, s =>
    match (if prevWord then none else tryMatch s) with
    | some rest => s.take (s.length - rest.length) :: scanIPv4 fuel true rest
    | none =>
      match s with
      | [] => []
      | c :: cs => scanIPv4 fuel (isWordC c) cs

/-- Models `ipv4Re.FindAllString(body, -1)`. -/
def findAllIPv4 (s : String) : List String :=
  (scanIPv4 (s.data.length + 1) false s.data).map String.mk

/-! ### `resolveDoH` (`internal/endpoint/endpoint.go`)

The HTTP exchange and `json.Unmarshal` are Go-standard-library effects and
are embedded as an explicit argument: `answers = some l` states that
`json.Unmarshal` succeeded and produced the `Answer[].data` strings `l`
(`l = []` for a missing or empty `Answer` array), `answers = none` that it
failed; `body` is the raw response body fed to the regex fallback. -/

/-- The structured tier's candidate stream before de-duplication: each
answer's `data`, trimmed, kept iff `net.ParseIP` accepts it. -/
def dohStructuredSrc (answers : List String) : List String :=
  (answers.map goTrimSpace).filter (fun ip => goParseIPOk ip)

/-- Models `resolveDoH` from the point where the response body has been read:
the structured tier (when `json.Unmarshal` succeeded on a non-empty `Answer`
array and yields at least one candidate) and the raw IPv4-regex fallback. -/
def resolveDoH (answers : Option (List String)) (body : String) : List String :=
  match answers with
  | some l =>
    if 0 < l.length then
      let out := dedupFS (dohStructuredSrc l)
      if 0 < out.length then out else dedupFS (findAllIPv4 body)
    else dedupFS (findAllIPv4 body)
  | none => dedupFS (findAllIPv4 body)

/-- The pre-de-duplication candidate stream of the tier `resolveDoH` ends up
using, for stating the first-seen-order invariant. -/
def dohSource (answers : Option (List String)) (body : String) : List String :=
  match answers with
  | some l =>
    if 0 < l.length then
      if 0 < (dedupFS (dohStructuredSrc l)).length then dohStructuredSrc l
      else findAllIPv4 body
    else findAllIPv4 body
  | none => findAllIPv4 body

theorem resolveDoH_eq_dedup (answers : Option (List String)) (body : String) :
    resolveDoH answers body = dedupFS (dohSource answers body) := by
  match answers with
  | none => rfl
  | some l =>
    simp only [resolveDoH, dohSource]
    by_cases h1 : 0 < l.length
    · simp only [if_pos h1]
      by_cases h2 : 0 < (dedupFS (dohStructuredSrc l)).length
      · simp [if_pos h2]
      · simp [if_neg h2]
    · simp [if_neg h1]

/-! ### `fetchIPDesc` (`internal/endpoint/endpoint.go`) -/

/-- The geolocation record decoded from the ip-api.com response. -/
structure IPInfo where
  Status : String
  Query : String
  AS : String
  ISP : String
  Org : String
  City : String
  RegionName : String
  Country : String
deriving DecidableEq

/-- The description built by `fetchIPDesc` on the success path (after the
decode succeeded with status `"success"`). -/
def buildDesc (info : IPInfo) : String :=
  let loc := info.City
  let loc := if info.RegionName ≠ "" ∧ info.RegionName ≠ info.City
             then loc ++ ", " ++ info.RegionName else loc
  let loc := if info.Country ≠ "" then loc ++ ", " ++ info.Country else loc
  let loc := if loc = "" then "unknown location" else loc
  let asn := if info.AS = "" then info.Org else info.AS
  if asn ≠ "" then loc ++ " (" ++ asn ++ ")" else loc

/-- Models `fetchIPDesc` from the decode step on: `none` stands for any
request error or JSON decode error (every such path returns
`"lookup failed"`), `some info` for a decoded reply. -/
def fetchIPDesc (decoded : Option IPInfo) : String :=
  match decoded with
  | none => "lookup failed"
  | some info => if info.Status ≠ "success" then "lookup failed" else buildDesc info

/-- The locality prefix before the `"unknown location"` placeholder is
substituted (the value of `loc` after the `Country` step). -/
def rawLoc (info : IPInfo) : String :=
  let loc := info.City
  let loc := if info.RegionName ≠ "" ∧ info.RegionName ≠ info.City
             then loc ++ ", " ++ info.RegionName else loc
  if info.Country ≠ "" then loc ++ ", " ++ info.Country else loc

/-- The ASN part: the `as` field, or the `org` field when `as` is empty. -/
def asnOf (info : IPInfo) : String := if info.AS = "" then info.Org else info.AS

/-! ### `promptChoice` (`internal/endpoint/endpoint.go`)

Returns the chosen 0-based index together with whether the
`"Invalid selection ..., fallback to 1."` warning was emitted. -/

def promptChoice (count : Int) (input : String) : Int × Bool :=
  let line := goTrimSpace input
  if line = "" then (0, false)
  else
    match goAtoi line with
    | none => (0, true)
    | some n => if n < 1 ∨ count < n then (0, true) else (n - 1, false)

/-! ### `ParseSize` (`internal/config/config.go`)

The regex `(?i)^\\s*([\\d.]+)\\s*([a-z]*)\\s*$` is anchored on both sides and its
character classes (`\\s`, `[\\d.]`, case-insensitive `[a-z]`) are pairwise
disjoint, so the leftmost-first search is equivalent to maximal munch on
each group.  `strconv.ParseFloat` is applied to the captured `[0-9.]+` group
only, where it accepts exactly an optional integer part, an optional single
dot and an optional fractional part with at least one digit overall, and
returns the decimal value correctly rounded to the nearest IEEE-754 binary64
(round to nearest, ties to even), with `ErrRange` (propagated by `ParseSize`
as its error) on overflow to infinity.  The binary64 arithmetic of
`int64(num * float64(mul))` is embedded exactly: a non-negative finite
binary64 is the pair `(m, u)` of its integer significand and exponent with
value `m * 2^u`, produced by the correct-rounding function `roundF64`. -/

/-- The two capture groups of `sizeRe` on a matching input. -/
def sizeReMatch (s : String) : Option (List Char × List Char) :=
  let t1 := s.data.dropWhile reSpaceC
  let num := t1.takeWhile isNumDotC
  let t2 := t1.dropWhile isNumDotC
  if num = [] then none
  else
    let t3 := t2.dropWhile reSpaceC
    let unitCs := t3.takeWhile isAlphaC
    let t4 := t3.dropWhile isAlphaC
    if t4.dropWhile reSpaceC = [] then some (num, unitCs) else none

/-- The syntax of `strconv.ParseFloat` on a `[0-9.]*` string: the exact
scaled decimal `(n, k)` with value `n / 10^k`, before rounding. -/
def decSyntax (cs : List Char) : Option (Nat × Nat) :=
  let ip := cs.takeWhile isDigitC
  let r := cs.dropWhile isDigitC
  match r with
  | [] => if ip = [] then none else some (digitsValN ip, 0)
  | '.' :: r2 =>
    let fp := r2.takeWhile isDigitC
    let r3 := r2.dropWhile isDigitC
    if r3 = [] then
      if ip = [] ∧ fp = [] then none
      else some (digitsValN ip * 10 ^ fp.length + digitsValN fp, fp.length)
    else none
  | _ => none

/-- Base-2 logarithm by structural, tail-recursive recursion on a fuel
bound (so that concrete values reduce inside the kernel);
`log2fuel fuel n acc = ⌊log2 n⌋ + acc` whenever `1 ≤ n ≤ fuel`. -/
def log2fuel : Nat → Nat → Nat → Nat
  | 0, _, acc => acc
  | fuel + 1, n, acc => if 2 ≤ n then log2fuel fuel (n / 2) (acc + 1) else acc

def nlog2 (n : Nat) : Nat := log2fuel n n 0

/-- Floor of the base-2 logarithm of the positive rational `a / b`
(`a, b ≥ 1`).  With `S = ⌊log2 b⌋ + 1` we have `a * 2^S > b`, and for any
real `x ≥ 1`, `⌊log2 x⌋ = ⌊log2 ⌊x⌋⌋`; dividing by `2^S` shifts the
logarithm by exactly `S`. -/
def ratFloorLog2 (a b : Nat) : Int :=
  let S := nlog2 b + 1
  (nlog2 (a * 2 ^ S / b) : Int) - (S : Int)

/-- Correct rounding of the non-negative rational `a / b` (`b ≥ 1`) to the
nearest IEEE-754 binary64: round to nearest, ties to even, on the quantum
`2^u` with `u = max (⌊log2 (a/b)⌋ - 52) (-1074)` (52 fraction bits for
normal values, fixed quantum `2^-1074` for subnormals; a value that rounds
up to the next binade stays exactly representable on the coarser grid).
`some (m, u)` is the exact value `m * 2^u`; `none` is overflow to `+Inf`
(a rounded value ≥ 2^1024).  Underflow rounds to zero without error. -/
def roundF64 (a b : Nat) : Option (Nat × Int) :=
  if a = 0 then some (0, 0)
  else
    let e := ratFloorLog2 a b
    let u := max (e - 52) (-1074)
    let num := a * 2 ^ (-u).toNat
    let den := b * 2 ^ u.toNat
    let f := num / den
    let rem := num % den
    let m := if 2 * rem < den then f
             else if den < 2 * rem then f + 1
             else if f % 2 = 0 then f else f + 1
    -- the rounded value m * 2^u overflows iff it is ≥ 2^1024, iff
    -- ⌊log2 m⌋ + u ≥ 1024 (since 2^⌊log2 m⌋ ≤ m < 2^(⌊log2 m⌋+1))
    if (nlog2 m : Int) + u < 1024 then some (m, u) else none

/-- Models `strconv.ParseFloat` on a `[0-9.]*` string: the decimal value
`n / 10^k` correctly rounded to the nearest binary64; `none` on a syntax
error and on overflow (`ErrRange`). -/
def parseDecimal (cs : List Char) : Option (Nat × Int) :=
  match decSyntax cs with
  | none => none
  | some (n, k) => roundF64 n (10 ^ k)

/-- The binary64 product `f * float64(mul)`: every `mul` in the unit table
is < 2^53, so `float64(mul)` is exact and the product is the correctly
rounded exact product. -/
def f64MulNat (f : Nat × Int) (mul : Nat) : Option (Nat × Int) :=
  if 0 ≤ f.2 then roundF64 (f.1 * mul * 2 ^ f.2.toNat) 1
  else roundF64 (f.1 * mul) (2 ^ (-f.2).toNat)

/-- Go's `int64(f)` on a non-negative float: truncation toward zero.  For
`+Inf` and finite values ≥ 2^63 the Go specification leaves the result
implementation-defined; it is modelled as the amd64 saturation value
`-2^63`, and no theorem relies on that branch. -/
def f64ToInt64 (f : Option (Nat × Int)) : Int :=
  match f with
  | none => -(2 ^ 63)
  | some (m, u) =>
    let t := if 0 ≤ u then m * 2 ^ u.toNat else m / 2 ^ (-u).toNat
    if t < 2 ^ 63 then (t : Int) else -(2 ^ 63)

/-- The `switch strings.ToLower(unit)` multiplier table. -/
def unitMulTable (u : List Char) : Option Nat :=
  if u = "k".data ∨ u = "kb".data then some 1000
  else if u = "m".data ∨ u = "mb".data then some (1000 * 1000)
  else if u = "g".data ∨ u = "gb".data then some (1000 * 1000 * 1000)
  else if u = "t".data ∨ u = "tb".data then some (1000 * 1000 * 1000 * 1000)
  else if u = "kib".data then some 1024
  else if u = "mib".data then some (1024 * 1024)
  else if u = "gib".data then some (1024 * 1024 * 1024)
  else if u = "tib".data then some (1024 * 1024 * 1024 * 1024)
  else none

/-- Models `ParseSize`: `none` is the error return (regex mismatch,
`ParseFloat` error, or unknown unit). -/
def ParseSize (s : String) : Option Int :=
  match sizeReMatch s with
  | none => none
  | some (num, unitCs) =>
    match parseDecimal num with
    | none => none
    | some f =>
      if unitCs = [] then some (f64ToInt64 (some f))
      else
        match unitMulTable (toLowerList unitCs) with
        | none => none
        | some mul => some (f64ToInt64 (f64MulNat f mul))

/-! ### The transfer package (`src/unnamed/part_001`)

A download attempt's interaction with the network is its observable trace:
either request construction fails, or `client.Do` fails, or a response
arrives with a status code and a body that delivers a sequence of chunks,
each a byte count `n ≤ 256*1024` (the buffer size) paired with the error
returned alongside it (`none`, `io.EOF`, or any other read error). -/

inductive RErr
  | eof
  | other
deriving DecidableEq

structure Chunk where
  n : Nat
  err : Option RErr
deriving DecidableEq

inductive DlAttempt
  | reqErr
  | connErr
  | resp (status : Nat) (chunks : List Chunk)
deriving DecidableEq

/-- Result of one worker attempt: the byte count it returns, its fault flag,
and the total it added to the shared counter. -/
structure DlRes where
  ret : Nat
  fault : Bool
  shared : Nat
deriving DecidableEq

/-- The read loop of `doDownload`: add each chunk to the per-worker total and
the shared counter, stop as soon as the total reaches `maxBytes`, otherwise
stop at the first non-nil read error (faulted unless it is `io.EOF`).  An
exhausted trace behaves like a final `(0, io.EOF)` read. -/
def dlLoop (maxBytes : Nat) : List Chunk → Nat → Nat → DlRes
  | [], total, shared => ⟨total, false, shared⟩
  | c :: rest, total, shared =>
    let t := total + c.n
    let sh := shared + c.n
    if maxBytes ≤ t then ⟨t, false, sh⟩
    else
      match c.err with
      | none => dlLoop maxBytes rest t sh
      | some RErr.eof => ⟨t, false, sh⟩
      | some RErr.other => ⟨t, true, sh⟩

/-- Models `doDownload` over the attempt's observable trace. -/
def doDownload (maxBytes : Nat) : DlAttempt → DlRes
  | DlAttempt.reqErr => ⟨0, true, 0⟩
  | DlAttempt.connErr => ⟨0, true, 0⟩
  | DlAttempt.resp status chunks =>
    if 400 ≤ status then ⟨0, true, 0⟩
    else dlLoop maxBytes chunks 0 0

/-- The download-direction summary `Run` builds from its workers: the final
shared counter (the atomic adds of all workers commute and are all complete
when `wg.Wait` returns, so the final read is their plain sum) and the number
of workers whose fault flag was set. -/
structure RunSummary where
  Threads : Nat
  TotalBytes : Nat
  FaultCount : Nat
deriving DecidableEq

def runDownload (maxBytes : Nat) (attempts : List DlAttempt) : RunSummary :=
  ⟨attempts.length,
   (attempts.map fun a => (doDownload maxBytes a).shared).sum,
   (attempts.map fun a => (doDownload maxBytes a).fault).count true⟩

/-! #### Upload -/

/-- An upload attempt's observable trace: request construction failure,
a transport error from `client.Do` after the counting reader has produced
`sent` bytes, or a response with some status after `sent` bytes. -/
inductive UlAttempt
  | reqErr
  | connErr (sent : Nat)
  | resp (status : Nat) (sent : Nat)
deriving DecidableEq

/-- Models `doUpload` acting on the shared counter: the counting reader adds
every produced chunk to `shared` during the transfer (net effect `+ sent`);
on HTTP status ≥ 400 the attempt subtracts back exactly what it added and
reports 0 bytes; on a transport error the bytes stay counted.  Returns
`(new shared counter, reported bytes, fault flag)`. -/
def doUpload (shared : Int) : UlAttempt → Int × Nat × Bool
  | UlAttempt.reqErr => (shared, 0, true)
  | UlAttempt.connErr sent => (shared + sent, sent, true)
  | UlAttempt.resp status sent =>
    let sh := shared + sent
    if 400 ≤ status then (sh - sent, 0, true)
    else (sh, sent, false)

/-- The final shared counter after a sequence of upload worker attempts
(atomic adds/subtracts commute, so any serialisation gives this value). -/
def runUploads (shared : Int) : List UlAttempt → Int
  | [] => shared
  | a :: rest => runUploads (doUpload shared a).1 rest

/-- The bytes an attempt is entitled to leave in the shared counter: nothing
for a worker whose final HTTP status was ≥ 400. -/
def ulContrib : UlAttempt → Int
  | UlAttempt.reqErr => 0
  | UlAttempt.connErr sent => sent
  | UlAttempt.resp status sent => if 400 ≤ status then 0 else sent

/-! #### Final aggregation in `Run` -/

/-- The `Result` record of the transfer package; `DurationSecs` stands for
`Duration.Seconds()`, embedded as an exact rational. -/
structure EngineResult where
  Threads : Nat
  TotalBytes : Int
  DurationSecs : ℚ
  Mbps : ℚ
  FaultCount : Nat
  HadFault : Bool

/-- The final aggregation of `Run` (lines 99-116): `secs` is the measured
duration, replaced by 1 when it is ≤ 0, and
`mbps = total * 8 / (secs * 1e6)`. -/
def aggregate (threads : Nat) (total : Int) (durSecs : ℚ) (faultCount : Nat) :
    EngineResult :=
  let secs : ℚ := if durSecs ≤ 0 then 1 else durSecs
  { Threads := threads
    TotalBytes := total
    DurationSecs := durSecs
    Mbps := (total : ℚ) * 8 / (secs * 1000000)
    FaultCount := faultCount
    HadFault := decide (0 < faultCount) }

/-! ### Lemmas about the download read loop -/

/-- The loop adds every chunk to the per-worker total and the shared counter
in lockstep. -/
theorem dlLoop_shared_ret (maxBytes : Nat) :
    ∀ (chunks : List Chunk) (t s : Nat),
      (dlLoop maxBytes chunks t s).shared + t = (dlLoop maxBytes chunks t s).ret + s := by
  intro chunks
  induction chunks with
  | nil => intro t s; simp [dlLoop]; omega
  | cons c rest ih =>
    intro t s
    by_cases h : maxBytes ≤ t + c.n
    · simp [dlLoop, if_pos h]; omega
    · cases hce : c.err with
      | none =>
        simp only [dlLoop, if_neg h, hce]
        have := ih (t + c.n) (s + c.n)
        omega
      | some e =>
        cases e <;> simp [dlLoop, if_neg h, hce] <;> omega

/-- Upper bound: while the loop is still running the total is below
`maxBytes`, and one more chunk adds at most the buffer size. -/
theorem dlLoop_ret_le (maxBytes : Nat) :
    ∀ (chunks : List Chunk) (t s : Nat),
      (∀ c ∈ chunks, c.n ≤ 262144) → t < maxBytes →
      (dlLoop maxBytes chunks t s).ret ≤ maxBytes + 262143 := by
  intro chunks
  induction chunks with
  | nil => intro t s _ ht; simp [dlLoop]; omega
  | cons c rest ih =>
    intro t s hsz ht
    have hc : c.n ≤ 262144 := hsz c (by simp)
    by_cases h : maxBytes ≤ t + c.n
    · simp [dlLoop, if_pos h]; omega
    · cases hce : c.err with
      | none =>
        simp only [dlLoop, if_neg h, hce]
        exact ih (t + c.n) (s + c.n) (fun d hd => hsz d (by simp [hd])) (by omega)
      | some e =>
        cases e <;> simp [dlLoop, if_neg h, hce] <;> omega

/-- Lower bound: with no read error, the loop only stops once the supply is
exhausted or the cap is reached. -/
theorem dlLoop_ret_ge (maxBytes : Nat) :
    ∀ (chunks : List Chunk) (t s : Nat),
      (∀ c ∈ chunks, c.err = none) →
      maxBytes ≤ t + (chunks.map Chunk.n).sum →
      maxBytes ≤ (dlLoop maxBytes chunks t s).ret := by
  intro chunks
  induction chunks with
  | nil => intro t s _ ht; simp [dlLoop]; simpa using ht
  | cons c rest ih =>
    intro t s herr ht
    have hce := herr c (by simp)
    simp only [List.map_cons, List.sum_cons] at ht
    by_cases h : maxBytes ≤ t + c.n
    · simp [dlLoop, if_pos h]; omega
    · simp only [dlLoop, if_neg h, hce]
      exact ih (t + c.n) (s + c.n) (fun d hd => herr d (by simp [hd])) (by omega)

/-- With no read error the fault flag is never set. -/
theorem dlLoop_no_fault (maxBytes : Nat) :
    ∀ (chunks : List Chunk) (t s : Nat),
      (∀ c ∈ chunks, c.err = none) →
      (dlLoop maxBytes chunks t s).fault = false := by
  intro chunks
  induction chunks with
  | nil => intro t s _; simp [dlLoop]
  | cons c rest ih =>
    intro t s herr
    have hce := herr c (by simp)
    by_cases h : maxBytes ≤ t + c.n
    · simp [dlLoop, if_pos h]
    · simp only [dlLoop, if_neg h, hce]
      exact ih (t + c.n) (s + c.n) fun d hd => herr d (by simp [hd])

/-- A non-`io.EOF` read error hit before the cap stops the loop with the
fault flag set, returning and keeping the partial total. -/
theorem dlLoop_error_stops (maxBytes : Nat) :
    ∀ (pre : List Chunk) (n t s : Nat),
      (∀ c ∈ pre, c.err = none) →
      t + (pre.map Chunk.n).sum + n < maxBytes →
      dlLoop maxBytes (pre ++ [⟨n, some RErr.other⟩]) t s =
        ⟨t + (pre.map Chunk.n).sum + n, true, s + (pre.map Chunk.n).sum + n⟩ := by
  intro pre
  induction pre with
  | nil =>
    intro n t s _ hlt
    simp only [List.map_nil, List.sum_nil, Nat.add_zero] at hlt ⊢
    simp only [List.nil_append, dlLoop]
    rw [if_neg (by omega)]
  | cons c rest ih =>
    intro n t s herr hlt
    have hce := herr c (by simp)
    simp only [List.map_cons, List.sum_cons] at hlt ⊢
    simp only [List.cons_append, dlLoop, hce]
    rw [if_neg (by omega)]
    simp only [List.append_eq]
    rw [ih n (t + c.n) (s + c.n) (fun d hd => herr d (by simp [hd])) (by omega)]
    simp only [DlRes.mk.injEq]
    refine ⟨by omega, trivial, by omega⟩

/-- Pointwise bounds on a map lift to bounds on the sum. -/
theorem sum_map_bounds {α : Type} (f : α → Nat) (lo hi : Nat) :
    ∀ (l : List α), (∀ a ∈ l, lo ≤ f a ∧ f a ≤ hi) →
      lo * l.length ≤ (l.map f).sum ∧ (l.map f).sum ≤ hi * l.length := by
  intro l
  induction l with
  | nil => intro _; simp
  | cons a rest ih =>
    intro h
    have ha := h a (by simp)
    have hr := ih fun b hb => h b (by simp [hb])
    simp only [List.map_cons, List.sum_cons, List.length_cons, Nat.mul_succ]
    omega

/-- A map that is pointwise `false` has no `true` entries. -/
theorem count_true_eq_zero {α : Type} {f : α → Bool} :
    ∀ (l : List α), (∀ a ∈ l, f a = false) → (l.map f).count true = 0 := by
  intro l
  induction l with
  | nil => intro _; simp
  | cons a rest ih =>
    intro h
    have ha := h a (by simp)
    simp [List.count_cons, ha, ih fun b hb => h b (by simp [hb])]

/-- Shared helper: the bounds of the error-free read loop, in terms of the
bytes added to the shared counter. -/
theorem dlLoop_shared_bounds (maxBytes : Nat) (chunks : List Chunk)
    (hmax : 1 ≤ maxBytes)
    (hsz : ∀ c ∈ chunks, c.n ≤ 262144)
    (herr : ∀ c ∈ chunks, c.err = none) :
    (dlLoop maxBytes chunks 0 0).shared ≤ maxBytes + 262143 ∧
    (maxBytes ≤ (chunks.map Chunk.n).sum →
      maxBytes ≤ (dlLoop maxBytes chunks 0 0).shared) ∧
    (dlLoop maxBytes chunks 0 0).fault = false := by
  have hs := dlLoop_shared_ret maxBytes chunks 0 0
  refine ⟨?_, ?_, dlLoop_no_fault maxBytes chunks 0 0 herr⟩
  · have := dlLoop_ret_le maxBytes chunks 0 0 hsz (by omega)
    omega
  · intro hsup
    have := dlLoop_ret_ge maxBytes chunks 0 0 herr (by simpa using hsup)
    omega

/-! ### Claim C10 -/

/-- C10: for every download attempt that streams a response body without
error, the bytes the worker adds to the shared counter reach `maxBytes`
whenever the stream supplies that many, and never exceed
`maxBytes + 262143`: the loop reads chunks of at most 256 KiB (adding each
whole chunk before checking the cap) and stops at the first chunk that
brings the per-worker total to `maxBytes` or beyond, so no fault is
reported.  (`1 ≤ maxBytes` holds for every engine run: `config.Load`
rejects `MaxBytes ≤ 0`.) -/
theorem download_shared_counter_bounds (maxBytes : Nat) (chunks : List Chunk) :
    1 ≤ maxBytes →
    (∀ c ∈ chunks, c.n ≤ 262144) →
    (∀ c ∈ chunks, c.err = none) →
    (dlLoop maxBytes chunks 0 0).shared ≤ maxBytes + 262143 ∧
    (maxBytes ≤ (chunks.map Chunk.n).sum →
      maxBytes ≤ (dlLoop maxBytes chunks 0 0).shared) ∧
    (dlLoop maxBytes chunks 0 0).fault = false := by
  intro hmax hsz herr
  exact dlLoop_shared_bounds maxBytes chunks hmax hsz herr

/-- Witness for C10 at a concrete run: cap 10, two 6-byte chunks. -/
theorem download_shared_counter_bounds_witness :
    (dlLoop 10 [⟨6, none⟩, ⟨6, none⟩] 0 0).shared ≤ 10 + 262143 ∧
    (10 ≤ ([⟨6, none⟩, ⟨6, none⟩].map Chunk.n).sum →
      10 ≤ (dlLoop 10 [⟨6, none⟩, ⟨6, none⟩] 0 0).shared) ∧
    (dlLoop 10 [⟨6, none⟩, ⟨6, none⟩] 0 0).fault = false :=
  download_shared_counter_bounds 10 [⟨6, none⟩, ⟨6, none⟩]
    (by decide) (by decide) (by decide)

/-! ### Claim C4 -/

/-- C4 counterexample: a worker whose stream dies with a non-EOF read error
after 500 bytes is faulted but reports 500 bytes, not 0 — the "0 bytes
counted for this worker" part of the claim fails for mid-stream transport
errors (the shared-counter increments are indeed kept). -/
theorem download_fault_zero_bytes_counterexample :
    (doDownload 1000 (DlAttempt.resp 200 [⟨500, none⟩, ⟨0, some RErr.other⟩])).fault = true ∧
    (doDownload 1000 (DlAttempt.resp 200 [⟨500, none⟩, ⟨0, some RErr.other⟩])).ret = 500 ∧
    (doDownload 1000 (DlAttempt.resp 200 [⟨500, none⟩, ⟨0, some RErr.other⟩])).ret ≠ 0 ∧
    (doDownload 1000 (DlAttempt.resp 200 [⟨500, none⟩, ⟨0, some RErr.other⟩])).shared = 500 := by
  decide

/-- C4 amended: a download worker is faulted with 0 bytes on a request
error, a `client.Do` transport error, or HTTP status ≥ 400 (all before any
byte is counted); a mid-stream non-EOF read error faults the worker and
stops it, reporting the partial total; and whatever the outcome of a
delivered response, every increment the worker applied to the shared
counter is kept — never rolled back. -/
theorem download_fault_handling (maxBytes : Nat) :
    (doDownload maxBytes DlAttempt.reqErr = ⟨0, true, 0⟩) ∧
    (doDownload maxBytes DlAttempt.connErr = ⟨0, true, 0⟩) ∧
    (∀ status chunks, 400 ≤ status →
        doDownload maxBytes (DlAttempt.resp status chunks) = ⟨0, true, 0⟩) ∧
    (∀ status chunks, status < 400 →
        (doDownload maxBytes (DlAttempt.resp status chunks)).shared =
          (doDownload maxBytes (DlAttempt.resp status chunks)).ret) ∧
    (∀ status (pre : List Chunk) (n : Nat), status < 400 →
        (∀ c ∈ pre, c.err = none) →
        (pre.map Chunk.n).sum + n < maxBytes →
        doDownload maxBytes (DlAttempt.resp status (pre ++ [⟨n, some RErr.other⟩])) =
          ⟨(pre.map Chunk.n).sum + n, true, (pre.map Chunk.n).sum + n⟩) := by
  refine ⟨rfl, rfl, ?_, ?_, ?_⟩
  · intro status chunks h
    simp [doDownload, if_pos h]
  · intro status chunks h
    simp only [doDownload, if_neg (by omega : ¬ 400 ≤ status)]
    have := dlLoop_shared_ret maxBytes chunks 0 0
    omega
  · intro status pre n h herr hlt
    simp only [doDownload, if_neg (by omega : ¬ 400 ≤ status)]
    simpa using dlLoop_error_stops maxBytes pre n 0 0 herr (by omega)

/-- Witness for C4 at a concrete faulted attempt (HTTP 404). -/
theorem download_fault_handling_witness :
    doDownload 1000 (DlAttempt.resp 404 [⟨5, none⟩]) = ⟨0, true, 0⟩ :=
  (download_fault_handling 1000).2.2.1 404 [⟨5, none⟩] (by decide)

/-! ### Claim C3 -/

def fullChunks4 : List Chunk := List.replicate 4 ⟨262144, none⟩

def fourFullAttempts : List DlAttempt := List.replicate 4 (DlAttempt.resp 200 fullChunks4)

/-- C3 counterexample: four workers against a fault-free 200 endpoint whose
body arrives in full 256 KiB chunks each count 1048576 bytes (the first
chunk that reaches the 1000000-byte cap is counted whole), so `TotalBytes`
is 4194304, not the claimed exactly 4000000; `FaultCount` is 0. -/
theorem download_total_exactly_counterexample :
    (runDownload 1000000 fourFullAttempts).FaultCount = 0 ∧
    (runDownload 1000000 fourFullAttempts).TotalBytes = 4194304 ∧
    (runDownload 1000000 fourFullAttempts).TotalBytes ≠ 4000000 := by
  decide

/-- C3 amended: with `threadCount = 4`, `maxBytes = 1000000` and every
worker receiving status 200 and an error-free body that supplies at least
the cap, `FaultCount = 0` and `TotalBytes` lies between 4000000 (each
worker counts at least its own per-worker cap; caps are per-worker, not
shared) and `4 * (1000000 + 262143)` — exact equality with 4000000 is not
guaranteed because each worker counts whole 256 KiB chunks. -/
theorem download_run_total_bounds (cls : List (List Chunk)) :
    cls.length = 4 →
    (∀ cl ∈ cls, ∀ c ∈ cl, c.n ≤ 262144 ∧ c.err = none) →
    (∀ cl ∈ cls, 1000000 ≤ (cl.map Chunk.n).sum) →
    (runDownload 1000000 (cls.map (DlAttempt.resp 200))).FaultCount = 0 ∧
    4000000 ≤ (runDownload 1000000 (cls.map (DlAttempt.resp 200))).TotalBytes ∧
    (runDownload 1000000 (cls.map (DlAttempt.resp 200))).TotalBytes ≤ 4 * (1000000 + 262143) := by
  intro hlen hcs hsup
  have hworker : ∀ cl ∈ cls,
      1000000 ≤ (doDownload 1000000 (DlAttempt.resp 200 cl)).shared ∧
      (doDownload 1000000 (DlAttempt.resp 200 cl)).shared ≤ 1000000 + 262143 ∧
      (doDownload 1000000 (DlAttempt.resp 200 cl)).fault = false := by
    intro cl hcl
    have hsz : ∀ c ∈ cl, c.n ≤ 262144 := fun c hc => (hcs cl hcl c hc).1
    have herr : ∀ c ∈ cl, c.err = none := fun c hc => (hcs cl hcl c hc).2
    have hb := dlLoop_shared_bounds 1000000 cl (by omega) hsz herr
    simp only [doDownload, if_neg (by omega : ¬ 400 ≤ 200)]
    exact ⟨hb.2.1 (hsup cl hcl), hb.1, hb.2.2⟩
  constructor
  · simp only [runDownload, List.map_map]
    refine count_true_eq_zero cls ?_
    intro cl hcl
    exact (hworker cl hcl).2.2
  · have hsum := sum_map_bounds
      (fun cl => (doDownload 1000000 (DlAttempt.resp 200 cl)).shared)
      1000000 (1000000 + 262143) cls
      (fun cl hcl => ⟨(hworker cl hcl).1, (hworker cl hcl).2.1⟩)
    simp only [runDownload, List.map_map, hlen] at hsum ⊢
    constructor
    · calc (4000000 : Nat) = 1000000 * 4 := by norm_num
        _ ≤ _ := hsum.1
    · calc _ ≤ (1000000 + 262143) * 4 := hsum.2
        _ = 4 * (1000000 + 262143) := by ring

/-- Witness for C3 (amended) at the concrete full-chunk streams. -/
theorem download_run_total_bounds_witness :
    (runDownload 1000000 ((List.replicate 4 fullChunks4).map (DlAttempt.resp 200))).FaultCount = 0 ∧
    4000000 ≤ (runDownload 1000000 ((List.replicate 4 fullChunks4).map (DlAttempt.resp 200))).TotalBytes ∧
    (runDownload 1000000 ((List.replicate 4 fullChunks4).map (DlAttempt.resp 200))).TotalBytes ≤ 4 * (1000000 + 262143) :=
  download_run_total_bounds (List.replicate 4 fullChunks4)
    (by decide) (by decide) (by decide)

/-! ### Claim C1 -/

/-- C1: upload fault accounting.  A worker whose PUT completes with HTTP
status ≥ 400 subtracts exactly the bytes it had added, reports 0 bytes and
is faulted; a worker with a transport error is faulted but its
counted-so-far bytes stay in the shared counter; and over any sequence of
worker outcomes the final shared counter is the initial value plus each
worker's entitled contribution — which is 0 for every worker whose final
HTTP status was ≥ 400, so the counter never includes such a worker's
bytes. -/
theorem upload_rollback_accounting :
    (∀ (shared : Int) (status sent : Nat), 400 ≤ status →
        doUpload shared (UlAttempt.resp status sent) = (shared, 0, true)) ∧
    (∀ (shared : Int) (sent : Nat),
        doUpload shared (UlAttempt.connErr sent) = (shared + sent, sent, true)) ∧
    (∀ (shared : Int) (attempts : List UlAttempt),
        runUploads shared attempts = shared + (attempts.map ulContrib).sum) := by
  refine ⟨?_, ?_, ?_⟩
  · intro shared status sent h
    simp [doUpload, if_pos h]
  · intro shared sent
    rfl
  · intro shared attempts
    induction attempts generalizing shared with
    | nil => simp [runUploads]
    | cons a rest ih =>
      simp only [runUploads, List.map_cons, List.sum_cons, ih]
      cases a with
      | reqErr => simp [doUpload, ulContrib]
      | connErr sent => simp [doUpload, ulContrib]; ring
      | resp status sent =>
        by_cases h : 400 ≤ status
        · simp [doUpload, ulContrib, if_pos h]
        · simp [doUpload, ulContrib, if_neg h]; ring

/-- Witness for C1 at a concrete rejected upload (HTTP 404 after 7 bytes). -/
theorem upload_rollback_accounting_witness :
    (400 ≤ 404 ∧ doUpload 100 (UlAttempt.resp 404 7) = (100, 0, true)) :=
  ⟨by decide, upload_rollback_accounting.1 100 404 7 (by decide)⟩

/-! ### Claim C2 -/

/-- C2 counterexample: a run of half a measured second with 1000000 bytes.
The code divides by the measured 0.5 s (Mbps = 16), while the claimed
`max(Duration.Seconds(), 1)` divisor would give 8. -/
theorem mbps_max_divisor_counterexample :
    (aggregate 4 1000000 (1 / 2) 0).Mbps ≠
      ((1000000 : ℚ) * 8) / (max ((1 : ℚ) / 2) 1 * 1000000) := by
  rw [max_eq_right (by norm_num : ((1 : ℚ) / 2) ≤ 1)]
  norm_num [aggregate]

/-- C2 amended: in the final aggregation the elapsed-seconds divisor is the
measured duration itself whenever it is positive — it is replaced by 1 only
when the measured duration is ≤ 0 — so
`Mbps = TotalBytes*8 / durSecs / 1e6` for positive durations (including
those below one second) and `Mbps = TotalBytes*8 / 1e6` otherwise. -/
theorem mbps_divisor_characterization (threads : Nat) (total : Int)
    (durSecs : ℚ) (fc : Nat) :
    (0 < durSecs →
      (aggregate threads total durSecs fc).Mbps = (total : ℚ) * 8 / (durSecs * 1000000)) ∧
    (durSecs ≤ 0 →
      (aggregate threads total durSecs fc).Mbps = (total : ℚ) * 8 / 1000000) := by
  constructor
  · intro h
    simp [aggregate, not_le.mpr h]
  · intro h
    simp [aggregate, if_pos h]

/-- Witness for C2 (amended) at a concrete 2-second run. -/
theorem mbps_divisor_characterization_witness :
    (0 : ℚ) < 2 ∧
    (aggregate 4 2000000 2 0).Mbps = ((2000000 : Int) : ℚ) * 8 / ((2 : ℚ) * 1000000) :=
  ⟨by norm_num, (mbps_divisor_characterization 4 2000000 2 0).1 (by norm_num)⟩

/-! ### Claim C5 -/

/-- C5: whichever tier produces the candidates (structured JSON answers or
the raw IPv4-regex fallback), the list `resolveDoH` returns contains each
distinct address exactly once (`Nodup`, same members as the tier's
pre-de-duplication stream) in first-seen order (positions strictly ordered
by first occurrence in that stream); on the raw body
`"1.2.3.4\n5.6.7.8\n1.2.3.4\n"` it returns `["1.2.3.4", "5.6.7.8"]`. -/
theorem resolve_doh_first_seen_dedup :
    (∀ (answers : Option (List String)) (body : String),
        (resolveDoH answers body).Nodup ∧
        (∀ x, x ∈ resolveDoH answers body ↔ x ∈ dohSource answers body) ∧
        (resolveDoH answers body).Pairwise
          (fun a b => firstIdx (dohSource answers body) a <
                      firstIdx (dohSource answers body) b)) ∧
    resolveDoH none "1.2.3.4\n5.6.7.8\n1.2.3.4\n" = ["1.2.3.4", "5.6.7.8"] := by
  constructor
  · intro answers body
    rw [resolveDoH_eq_dedup]
    exact ⟨nodup_dedupFS _, fun x => mem_dedupFS, pairwise_firstIdx_dedupFS _⟩
  · decide

/-! ### Claim C6 -/

/-- C6 counterexample: the structured tier filters with `net.ParseIP`, which
accepts IPv6 — the answer entry `"::1"` is collected into the candidate
list although it is not a valid IPv4 address. -/
theorem structured_tier_ipv4_counterexample :
    resolveDoH (some ["::1"]) "" = ["::1"] ∧ isIPv4Chars "::1".data = false := by
  decide

/-- C6 amended: every entry the structured tier collects parses as a valid
IP address under `net.ParseIP` — IPv4 or IPv6; entries whose data parses as
neither (e.g. CNAME hostnames) are excluded, but IPv6 addresses are
accepted, not excluded. -/
theorem structured_tier_collects_valid_ip (l : List String) (x : String) :
    x ∈ dedupFS (dohStructuredSrc l) → goParseIPOk x = true := by
  intro hx
  have hmem := mem_dedupFS.mp hx
  exact (List.mem_filter.mp hmem).2

/-- Witness for C6 (amended) at a concrete answer list. -/
theorem structured_tier_collects_valid_ip_witness :
    ("1.2.3.4" ∈ dedupFS (dohStructuredSrc ["1.2.3.4", "host.example"]) ∧
     goParseIPOk "1.2.3.4" = true) :=
  ⟨by decide,
   structured_tier_collects_valid_ip ["1.2.3.4", "host.example"] "1.2.3.4" (by decide)⟩

/-! ### Claim C9 -/

/-- C9: for an interactive prompt over `count > 1` candidates, blank
(all-white-space) input selects index 0 with no warning; an integer `n` with
`1 ≤ n ≤ count` selects index `n - 1` with no warning; any other input —
non-integer or out of range — emits the invalid-selection warning and
selects index 0, defaulting on the first invalid entry rather than
looping. -/
theorem prompt_choice_selection (count : Int) (s : String) :
    1 < count →
    ((goTrimSpace s = "" → promptChoice count s = (0, false)) ∧
     (∀ n : Int, goAtoi (goTrimSpace s) = some n → 1 ≤ n → n ≤ count →
        promptChoice count s = (n - 1, false)) ∧
     (goTrimSpace s ≠ "" → goAtoi (goTrimSpace s) = none →
        promptChoice count s = (0, true)) ∧
     (∀ n : Int, goAtoi (goTrimSpace s) = some n → (n < 1 ∨ count < n) →
        promptChoice count s = (0, true))) := by
  intro _
  have hblank : goAtoi "" = none := rfl
  refine ⟨?_, ?_, ?_, ?_⟩
  · intro h
    simp [promptChoice, h]
  · intro n hsome h1 h2
    have hne : goTrimSpace s ≠ "" := by
      intro he
      rw [he, hblank] at hsome
      exact Option.noConfusion hsome
    simp only [promptChoice, if_neg hne, hsome]
    rw [if_neg (by omega : ¬ (n < 1 ∨ count < n))]
  · intro hne hnone
    simp [promptChoice, if_neg hne, hnone]
  · intro n hsome hout
    have hne : goTrimSpace s ≠ "" := by
      intro he
      rw [he, hblank] at hsome
      exact Option.noConfusion hsome
    simp only [promptChoice, if_neg hne, hsome]
    rw [if_pos hout]

/-- Witness for C9 at `count = 3` and the non-integer input `"abc"`. -/
theorem prompt_choice_selection_witness :
    ((1 : Int) < 3 ∧ promptChoice 3 "abc" = (0, true)) :=
  ⟨by decide, (prompt_choice_selection 3 "abc" (by decide)).2.2.1 (by decide) (by decide)⟩

/-! ### Claim C8 -/

theorem append_ne_empty_left {a b : String} (h : a ≠ "") : a ++ b ≠ "" := by
  intro hc
  have hd : (a ++ b).data = ("" : String).data := by rw [hc]
  simp [String.data_append] at hd
  exact h (String.ext hd.1)

theorem append_ne_empty_right {a b : String} (h : b ≠ "") : a ++ b ≠ "" := by
  intro hc
  have hd : (a ++ b).data = ("" : String).data := by rw [hc]
  simp [String.data_append] at hd
  exact h (String.ext hd.2)

/-- The raw locality string is empty exactly when city, region and country
are all empty (a non-empty region is appended even when the city is empty,
because it then differs from the empty city). -/
theorem rawLoc_empty_iff (info : IPInfo) :
    rawLoc info = "" ↔ (info.City = "" ∧ info.RegionName = "" ∧ info.Country = "") := by
  unfold rawLoc
  by_cases h1 : info.RegionName ≠ "" ∧ info.RegionName ≠ info.City
  · by_cases h2 : info.Country ≠ ""
    · simp only [if_pos h1, if_pos h2]
      constructor
      · intro hc
        exact absurd hc (append_ne_empty_right h2)
      · rintro ⟨-, -, hc⟩
        exact absurd hc h2
    · simp only [if_pos h1, if_neg h2]
      constructor
      · intro hc
        exact absurd hc (append_ne_empty_right h1.1)
      · rintro ⟨-, hr, -⟩
        exact absurd hr h1.1
  · by_cases h2 : info.Country ≠ ""
    · simp only [if_neg h1, if_pos h2]
      constructor
      · intro hc
        exact absurd hc (append_ne_empty_right h2)
      · rintro ⟨-, -, hc⟩
        exact absurd hc h2
    · simp only [if_neg h1, if_neg h2]
      push_neg at h1 h2
      constructor
      · intro hc
        refine ⟨hc, ?_, h2⟩
        by_cases hr : info.RegionName = ""
        · exact hr
        · rw [h1 hr, hc]
      · rintro ⟨hc, -, -⟩
        exact hc

def tokyoInfo : IPInfo :=
  ⟨"success", "1.2.3.4", "AS1234 Example", "", "", "Tokyo", "Tokyo", "Japan"⟩

def emptyLocInfo : IPInfo := ⟨"success", "", "AS1234 Example", "", "", "", "", ""⟩

def failInfo : IPInfo := ⟨"fail", "", "", "", "", "", "", ""⟩

/-- C8 counterexample: with all locality fields empty and the ASN field
present, Desc is `"unknown location (AS1234 Example)"`, not
`"unknown location"` — the claim's "Desc is unknown location exactly when
all locality fields are empty but the ASN field is present" fails. -/
theorem unknown_location_counterexample :
    (emptyLocInfo.City = "" ∧ emptyLocInfo.RegionName = "" ∧
     emptyLocInfo.Country = "" ∧ emptyLocInfo.AS ≠ "") ∧
    fetchIPDesc (some emptyLocInfo) = "unknown location (AS1234 Example)" ∧
    fetchIPDesc (some emptyLocInfo) ≠ "unknown location" := by
  decide

/-- C8 amended: Desc is `"lookup failed"` on any request/decode error or
non-success status; on success it is the locality string — City, then
`", " ++ RegionName` only when RegionName is non-empty and differs from
City, then `", " ++ Country` when non-empty — with the placeholder
`"unknown location"` substituted exactly when City, RegionName and Country
are all empty (regardless of the ASN field), followed by
`" (" ++ ASN ++ ")"` where ASN is the `as` field or, when that is empty,
the `org` field, appended whenever ASN is non-empty; e.g. the Tokyo reply
yields `"Tokyo, Japan (AS1234 Example)"`. -/
theorem desc_building (info : IPInfo) :
    (fetchIPDesc none = "lookup failed") ∧
    (info.Status ≠ "success" → fetchIPDesc (some info) = "lookup failed") ∧
    (info.Status = "success" → fetchIPDesc (some info) =
       (if asnOf info ≠ "" then
          (if rawLoc info = "" then "unknown location" else rawLoc info) ++
            " (" ++ asnOf info ++ ")"
        else (if rawLoc info = "" then "unknown location" else rawLoc info))) ∧
    (rawLoc info = "" ↔ (info.City = "" ∧ info.RegionName = "" ∧ info.Country = "")) ∧
    fetchIPDesc (some tokyoInfo) = "Tokyo, Japan (AS1234 Example)" := by
  refine ⟨rfl, ?_, ?_, rawLoc_empty_iff info, by decide⟩
  · intro h
    simp [fetchIPDesc, h]
  · intro h
    have hns : ¬ info.Status ≠ "success" := by simp [h]
    simp only [fetchIPDesc, if_neg hns]
    rfl

/-- Witness for C8 (amended) at a concrete non-success reply. -/
theorem desc_building_witness :
    (failInfo.Status ≠ "success" ∧ fetchIPDesc (some failInfo) = "lookup failed") :=
  ⟨by decide, (desc_building failInfo).2.1 (by decide)⟩

/-! ### Claim C7 -/

theorem data_mk (cs : List Char) : (String.mk cs).data = cs := rfl

theorem digit_not_space {c : Char} (h : isDigitC c = true) : reSpaceC c = false := by
  simp [isDigitC] at h
  simp [reSpaceC]
  omega

theorem digit_numdot {c : Char} (h : isDigitC c = true) : isNumDotC c = true := by
  simp [isNumDotC, h]

theorem alpha_not_numdot {c : Char} (h : isAlphaC c = true) : isNumDotC c = false := by
  simp [isAlphaC] at h
  simp [isNumDotC, isDigitC]
  omega

theorem alpha_not_space {c : Char} (h : isAlphaC c = true) : reSpaceC c = false := by
  simp [isAlphaC] at h
  simp [reSpaceC]
  omega

/-- On a digit string followed by a letter string the anchored size regex
matches with the digits as the number group and the letters as the unit
group. -/
theorem sizeReMatch_eq (ds u : List Char)
    (hds : ds ≠ []) (hdig : ∀ c ∈ ds, isDigitC c = true)
    (hual : ∀ c ∈ u, isAlphaC c = true) :
    sizeReMatch (String.mk (ds ++ u)) = some (ds, u) := by
  have hnum : ∀ c ∈ ds, isNumDotC c = true := fun c hc => digit_numdot (hdig c hc)
  have h1 : (ds ++ u).dropWhile reSpaceC = ds ++ u := by
    obtain ⟨d, t, rfl⟩ := List.exists_cons_of_ne_nil hds
    simp only [List.cons_append]
    exact dropWhile_eq_self_of_head (digit_not_space (hdig d (by simp)))
  have h2 : (ds ++ u).takeWhile isNumDotC = ds := by
    rw [takeWhile_append_of_all hnum]
    cases u with
    | nil => simp
    | cons a t =>
      rw [takeWhile_eq_nil_of_head (alpha_not_numdot (hual a (by simp)))]
      simp
  have h3 : (ds ++ u).dropWhile isNumDotC = u := by
    rw [dropWhile_append_of_all hnum]
    cases u with
    | nil => simp
    | cons a t => exact dropWhile_eq_self_of_head (alpha_not_numdot (hual a (by simp)))
  have h4 : u.dropWhile reSpaceC = u := by
    cases u with
    | nil => simp
    | cons a t => exact dropWhile_eq_self_of_head (alpha_not_space (hual a (by simp)))
  have h5 : u.takeWhile isAlphaC = u := by
    simpa using takeWhile_append_of_all (r := []) hual
  have h6 : u.dropWhile isAlphaC = [] := by
    simpa using dropWhile_append_of_all (r := []) hual
  simp only [sizeReMatch, data_mk, h1, h2, h3, h4, h5, h6, List.dropWhile_nil]
  simp [hds]

/-- The decimal syntax of a pure digit string is its integer value at
scale 0. -/
theorem decSyntax_digits (ds : List Char) (hds : ds ≠ [])
    (hdig : ∀ c ∈ ds, isDigitC c = true) :
    decSyntax ds = some (digitsValN ds, 0) := by
  have h5 : ds.takeWhile isDigitC = ds := by
    simpa using takeWhile_append_of_all (r := []) hdig
  have h6 : ds.dropWhile isDigitC = [] := by
    simpa using dropWhile_append_of_all (r := []) hdig
  simp only [decSyntax, h5, h6]
  simp [hds]

/-- The fuel recursion computes `Nat.log 2` once the fuel covers the
input. -/
theorem log2fuel_eq : ∀ (fuel n acc : Nat), n ≤ fuel →
    log2fuel fuel n acc = Nat.log 2 n + acc := by
  intro fuel
  induction fuel with
  | zero =>
    intro n acc h
    have : n = 0 := by omega
    simp [this, log2fuel, Nat.log_zero_right]
  | succ fuel ih =>
    intro n acc h
    by_cases h2 : 2 ≤ n
    · simp only [log2fuel, if_pos h2]
      rw [ih (n / 2) (acc + 1) (by omega), Nat.log_of_one_lt_of_le (by norm_num) h2]
      omega
    · simp only [log2fuel, if_neg h2]
      rw [Nat.log_of_lt (by omega)]
      omega

theorem nlog2_eq_log (n : Nat) : nlog2 n = Nat.log 2 n := by
  simpa using log2fuel_eq n n 0 le_rfl

/-- Shifting by a power of two shifts the base-2 logarithm. -/
theorem log_mul_pow2 (w : Nat) (hw : w ≠ 0) :
    ∀ S : Nat, Nat.log 2 (w * 2 ^ S) = Nat.log 2 w + S := by
  intro S
  induction S with
  | zero => simp
  | succ S ih =>
    have hr : w * 2 ^ (S + 1) = w * 2 ^ S * 2 := by ring
    have hnz : w * 2 ^ S ≠ 0 := by positivity
    rw [hr, Nat.log_mul_base (by norm_num) hnz, ih]
    omega

/-- `roundF64` is exact on integer values below 2^53: the rational
`(w*b)/b = w` rounds to the binary64 with significand
`w * 2^(52 - ⌊log2 w⌋)` and exponent `⌊log2 w⌋ - 52`. -/
theorem roundF64_int_exact (w b : Nat) (hw : 1 ≤ w) (h53 : w < 2 ^ 53) (hb : 1 ≤ b) :
    roundF64 (w * b) b = some (w * 2 ^ (52 - Nat.log 2 w), (Nat.log 2 w : Int) - 52) := by
  set L := Nat.log 2 w with hLdef
  have hLle : L ≤ 52 := by
    have := Nat.log_lt_of_lt_pow (by omega : w ≠ 0) h53
    omega
  have hwlt : w < 2 ^ (L + 1) := Nat.lt_pow_succ_log_self (by norm_num) w
  have hab : ¬ (w * b = 0) := by positivity
  have hdiv : w * b * 2 ^ (Nat.log 2 b + 1) / b = w * 2 ^ (Nat.log 2 b + 1) := by
    rw [show w * b * 2 ^ (Nat.log 2 b + 1) = w * 2 ^ (Nat.log 2 b + 1) * b by ring]
    exact Nat.mul_div_cancel _ (by omega)
  have hrat : ratFloorLog2 (w * b) b = (L : Int) := by
    simp only [ratFloorLog2, nlog2_eq_log, hdiv, log_mul_pow2 w (by omega)]
    push_cast
    ring
  have hmax : max ((L : Int) - 52) (-1074) = (L : Int) - 52 := by
    apply max_eq_left
    omega
  have h1 : (-((L : Int) - 52)).toNat = 52 - L := by omega
  have h2 : ((L : Int) - 52).toNat = 0 := by omega
  have hnum : w * b * 2 ^ (52 - L) = w * 2 ^ (52 - L) * b := by ring
  have hf : w * 2 ^ (52 - L) * b / b = w * 2 ^ (52 - L) :=
    Nat.mul_div_cancel _ (by omega)
  have hrem : w * 2 ^ (52 - L) * b % b = 0 := Nat.mul_mod_left _ _
  have hlogm : Nat.log 2 (w * 2 ^ (52 - L)) = 52 := by
    rw [log_mul_pow2 w (by omega)]
    omega
  simp only [roundF64, hrat, hmax, h1, h2, pow_zero, mul_one, hnum, hf, hrem,
    Nat.mul_zero, nlog2_eq_log]
  rw [if_neg hab, if_pos (by omega : 0 < b), hlogm]
  split_ifs with hc
  · rfl
  · exfalso
    omega

/-- The binary64 product of an exactly represented `w < 2^53` and an exact
small multiplier is the exactly represented product when it stays below
2^53. -/
theorem f64MulNat_exact (w mul : Nat) (hw : 1 ≤ w) (hmul : 1 ≤ mul)
    (hp : w * mul < 2 ^ 53) :
    f64MulNat (w * 2 ^ (52 - Nat.log 2 w), (Nat.log 2 w : Int) - 52) mul =
      some (w * mul * 2 ^ (52 - Nat.log 2 (w * mul)),
            (Nat.log 2 (w * mul) : Int) - 52) := by
  set L := Nat.log 2 w with hLdef
  have h53 : w < 2 ^ 53 := lt_of_le_of_lt (Nat.le_mul_of_pos_right w (by omega)) hp
  have hLle : L ≤ 52 := by
    have := Nat.log_lt_of_lt_pow (by omega : w ≠ 0) h53
    omega
  have hwm : 1 ≤ w * mul := Nat.mul_pos (by omega) (by omega)
  by_cases hL : L = 52
  · have hz : (L : Int) - 52 = 0 := by omega
    have hzz : 52 - L = 0 := by omega
    simp only [f64MulNat, hz, hzz, pow_zero, mul_one]
    rw [if_pos le_rfl]
    simp only [Int.toNat_zero, pow_zero, mul_one]
    simpa using roundF64_int_exact (w * mul) 1 hwm hp le_rfl
  · have hneg : ¬ ((0 : Int) ≤ (L : Int) - 52) := by omega
    simp only [f64MulNat]
    rw [if_neg hneg]
    have ht : (-((L : Int) - 52)).toNat = 52 - L := by omega
    rw [ht, show w * 2 ^ (52 - L) * mul = w * mul * 2 ^ (52 - L) by ring]
    exact roundF64_int_exact (w * mul) (2 ^ (52 - L)) hwm hp (Nat.pow_pos (by norm_num))

/-- Truncating an exactly represented integer float below 2^53 back to
int64 recovers the integer. -/
theorem f64ToInt64_exact (w : Nat) (hw : 1 ≤ w) (h53 : w < 2 ^ 53) :
    f64ToInt64 (some (w * 2 ^ (52 - Nat.log 2 w), (Nat.log 2 w : Int) - 52)) = (w : Int) := by
  set L := Nat.log 2 w with hLdef
  have hLle : L ≤ 52 := by
    have := Nat.log_lt_of_lt_pow (by omega : w ≠ 0) h53
    omega
  by_cases hL : L = 52
  · have hz : ((L : Int) - 52).toNat = 0 := by omega
    have hzz : 52 - L = 0 := by omega
    simp only [f64ToInt64, hzz, pow_zero, mul_one]
    rw [if_pos (by omega : (0 : Int) ≤ (L : Int) - 52), hz]
    rw [if_pos (by omega : w * 2 ^ 0 < 2 ^ 63)]
    simp
  · simp only [f64ToInt64]
    rw [if_neg (by omega : ¬ (0 : Int) ≤ (L : Int) - 52)]
    have ht : (-((L : Int) - 52)).toNat = 52 - L := by omega
    rw [ht, Nat.mul_div_cancel _ (Nat.pow_pos (by norm_num))]
    rw [if_pos (by omega : w < 2 ^ 63)]

/-- The multiplier table only holds positive multipliers. -/
theorem unitMulTable_pos (u : List Char) (m : Nat)
    (h : unitMulTable u = some m) : 1 ≤ m := by
  simp only [unitMulTable] at h
  split_ifs at h <;> simp_all <;> omega

/-- C7 counterexample: Go parses the number through `float64`.
`2^53 + 1 = 9007199254740993` is not representable in binary64 and rounds
(ties to even) to `2^53`, so `ParseSize("9007199254740993k")` returns
9007199254740992000 — not the exact product 9007199254740993000 — and the
bare number parses to 9007199254740992: exact multiplicativity fails for
numbers beyond 2^53. -/
theorem parse_size_rounding_counterexample :
    ParseSize "9007199254740993k" = some 9007199254740992000 ∧
    (9007199254740992000 : Int) ≠ 9007199254740993 * 1000 ∧
    ParseSize "9007199254740993" = some 9007199254740992 ∧
    (9007199254740992 : Int) ≠ 9007199254740993 := by
  exact ⟨by decide, by decide, by decide, by decide⟩

/-- C7 amended: `ParseSize` is (as a function) deterministic, and on every
string of the form digits-then-unit whose digit value times the table
multiplier is below 2^53 (so that `strconv.ParseFloat`'s binary64 value and
the `float64` product are exact) the result is exactly the digits' value
times the unit multiplier, and the digits' value itself for such a bare
number; in particular `"2G"` parses to 2000000000, `"2GiB"` to 2147483648
and `"512"` to 512.  Beyond 2^53 the float64 rounding makes the result
differ from the exact product. -/
theorem parse_size_multiplicative :
    (∀ (ds u : List Char) (m : Nat),
        ds ≠ [] → (∀ c ∈ ds, isDigitC c = true) →
        u ≠ [] → (∀ c ∈ u, isAlphaC c = true) →
        unitMulTable (toLowerList u) = some m →
        digitsValN ds * m < 2 ^ 53 →
        ParseSize (String.mk (ds ++ u)) = some ((digitsValN ds * m : Nat) : Int) ∧
        ParseSize (String.mk ds) = some ((digitsValN ds : Nat) : Int)) ∧
    ParseSize "2G" = some 2000000000 ∧
    ParseSize "2GiB" = some 2147483648 ∧
    ParseSize "512" = some 512 := by
  refine ⟨?_, by decide, by decide, by decide⟩
  intro ds u m hds hdig hu hual hmul hlt
  have hmpos : 1 ≤ m := unitMulTable_pos _ _ hmul
  have hpd : parseDecimal ds = roundF64 (digitsValN ds) 1 := by
    rw [parseDecimal, decSyntax_digits ds hds hdig]
    norm_num
  have hm := sizeReMatch_eq ds u hds hdig hual
  have hm2 : sizeReMatch (String.mk ds) = some (ds, []) := by
    simpa using sizeReMatch_eq ds [] hds hdig (by simp)
  rcases Nat.eq_zero_or_pos (digitsValN ds) with hz | hpos
  · have hr0 : roundF64 0 1 = some (0, 0) := rfl
    constructor
    · simp only [ParseSize, hm, hpd, hz, hr0]
      rw [if_neg hu]
      simp only [hmul]
      simp [f64MulNat, f64ToInt64, roundF64]
    · simp only [ParseSize, hm2, hpd, hz, hr0]
      simp [f64ToInt64]
  · have h53 : digitsValN ds < 2 ^ 53 :=
      lt_of_le_of_lt (Nat.le_mul_of_pos_right _ (by omega)) hlt
    have hrf : roundF64 (digitsValN ds) 1 =
        some (digitsValN ds * 2 ^ (52 - Nat.log 2 (digitsValN ds)),
              (Nat.log 2 (digitsValN ds) : Int) - 52) := by
      simpa using roundF64_int_exact (digitsValN ds) 1 hpos h53 le_rfl
    constructor
    · simp only [ParseSize, hm, hpd, hrf]
      rw [if_neg hu]
      simp only [hmul]
      rw [f64MulNat_exact _ m hpos hmpos hlt,
        f64ToInt64_exact _ (Nat.mul_pos hpos (by omega)) hlt]
    · simp only [ParseSize, hm2, hpd, hrf, if_true]
      rw [f64ToInt64_exact _ hpos h53]

/-- Witness for C7 (amended) at the concrete size string `"5k"`. -/
theorem parse_size_multiplicative_witness :
    ParseSize (String.mk (['5'] ++ ['k'])) = some ((digitsValN ['5'] * 1000 : Nat) : Int) ∧
    ParseSize (String.mk ['5']) = some ((digitsValN ['5'] : Nat) : Int) :=
  parse_size_multiplicative.1 ['5'] ['k'] 1000
    (by decide) (by decide) (by decide) (by decide) (by decide) (by decide)
